import Mathlib

/-!
Verification of the relighting parameter-estimation pipeline of the REAP
benchmark (`adv_patch_bench/transforms/lighting_tf.py` and the affine path of
`scripts/run_realism_test_main.py`).

The Python code is shallowly embedded here:

* pixel values and coefficients are exact rationals (`ℚ`) where the code only
  uses field arithmetic, and reals (`ℝ`) where the code takes `sqrt`, `log` or
  `exp`;
* torch tensors become lists or `Fin`-indexed functions;
* Python `assert` / `raise` become `Option` / `Except` results;
* calls into third-party libraries that are not part of this repository
  (kornia warps and HSV conversions, OpenCV `getAffineTransform`,
  `np.polyfit`) are abstracted as explicit function parameters: every theorem
  below holds for all values of those parameters.
-/

namespace Reap

/-- Python `round`: round half to even (banker's rounding), as used by
`round((1 - percentile) * len(real_pixels))` and
`round(min(percentile, 1 - percentile) * 100)` in `lighting_tf.py`. -/
def pyRound (q : ℚ) : ℤ :=
  let f : ℤ := ⌊q⌋
  let frac : ℚ := q - f
  if frac < 1 / 2 then f
  else if 1 / 2 < frac then f + 1
  else if f % 2 = 0 then f else f + 1

/-- Arithmetic mean of a list, as `torch.Tensor.mean` on a nonempty 1-D
tensor (callers establish nonemptiness; the empty case yields NaN in torch). -/
def listMeanQ (xs : List ℚ) : ℚ := xs.sum / xs.length

/-- `np.nanpercentile(xs, q)` on a 1-D array without NaNs, `q` in `[0, 100]`:
sort ascending, then linearly interpolate at fractional index
`q / 100 * (n - 1)`.  The sorted list of values is independent of the sorting
algorithm, so insertion sort stands in for numpy's introsort. -/
def percentileQ (xs : List ℚ) (q : ℚ) : ℚ :=
  let a := xs.insertionSort (fun x y => x ≤ y)
  let n := a.length
  if n = 0 then 0
  else
    let pos : ℚ := q / 100 * ((n : ℚ) - 1)
    let i : ℕ := (Int.floor pos).toNat
    let lo := a.getD i 0
    let hi := a.getD (min (i + 1) (n - 1)) 0
    lo + (pos - (i : ℚ)) * (hi - lo)

/-- The Python local variable `real_pixels` inside `_simple_percentile`.  It
starts as a list of per-channel 1-D tensors (or the stacked 2-D tensor in the
default mode) and is reassigned to a 1-D tensor by
`real_pixels = real_pixels[channel].reshape(-1)` on the first loop iteration. -/
inductive PyPix where
  | chans : List (List ℚ) → PyPix
  | flat : List ℚ → PyPix
deriving DecidableEq

/-- `real_pixels[channel].reshape(-1)`: indexing a list of 1-D tensors (or a
2-D tensor) yields a row; indexing a 1-D tensor yields a scalar, which
`reshape(-1)` turns into a one-element tensor.  Out-of-range indexing is a
Python `IndexError`, modelled as `none`. -/
def pyIndexReshape : PyPix → ℕ → Option (List ℚ)
  | .chans ls, i => ls.get? i
  | .flat xs, i => (xs.get? i).map (fun v => [v])

/-- The `for i, channel in enumerate(channels)` loop of `_simple_percentile`:
each iteration rebinds `real_pixels` to the indexed row, takes the `pct`-th
and `(100 - pct)`-th percentiles and emits the row `(max - min, min)` of the
coefficient tensor. -/
def percChannelLoop (pct : ℕ) : List ℕ → PyPix → Option (List (ℚ × ℚ))
  | [], _ => some []
  | c :: cs, rp =>
    match pyIndexReshape rp c with
    | none => none
    | some xs =>
      let mn := percentileQ xs (pct : ℚ)
      let mx := percentileQ xs ((100 - pct : ℕ) : ℚ)
      (percChannelLoop pct cs (.flat xs)).map (fun rest => (mx - mn, mn) :: rest)

/-- Python `str.split(sep)` with a nonempty separator, over character lists.
The fuel argument (instantiated with the string length plus one) makes the
recursion structural; every step consumes at least one character. -/
def pySplitAux (sep : List Char) : ℕ → List Char → List Char → List (List Char)
  | 0, acc, _ => [acc.reverse]
  | _ + 1, acc, [] => [acc.reverse]
  | fuel + 1, acc, c :: rest =>
    if sep.isPrefixOf (c :: rest) then
      acc.reverse :: pySplitAux sep fuel [] ((c :: rest).drop sep.length)
    else
      pySplitAux sep fuel (c :: acc) rest

/-- Python `s.split(sep)` for a character list `s` and nonempty separator. -/
def pySplitL (s sep : List Char) : List (List Char) :=
  pySplitAux sep (s.length + 1) [] s

/-- Python `s.split(sep)` for a string `s` and nonempty separator `sep`. -/
def pySplit (s sep : String) : List (List Char) :=
  pySplitL s.toList sep.toList

/-- Whether `pat` occurs as a substring of `s` (Python `pat in s`). -/
def strContains (s pat : String) : Bool := (pySplit s pat).length != 1

/-- `_simple_percentile(real_pixels, mode, percentile)` from
`lighting_tf.py`.  The leading `assert 0 <= percentile <= 1` and the
`IndexError` reachable through the loop are modelled by `none`.  In the
default mode the three channel tensors are stacked and flattened into a
single row (`torch.stack` requires equal lengths). -/
def simplePercentile (realPixels : List (List ℚ)) (mode : String) (percentile : ℚ) :
    Option (List (ℚ × ℚ)) :=
  if 0 ≤ percentile ∧ percentile ≤ 1 then
    let pct : ℕ := (pyRound (min percentile (1 - percentile) * 100)).toNat
    if strContains mode "-sv" then
      percChannelLoop pct [1, 2] (.chans realPixels)
    else if strContains mode "-l" then
      percChannelLoop pct [0] (.chans realPixels)
    else if realPixels.all (fun r => r.length = (realPixels.headD []).length) then
      percChannelLoop pct [0] (.chans [realPixels.flatten])
    else none
  else none

/-! ### `_fit_polynomial` (per-channel core)

`_fit_polynomial` first warps the synthetic object with kornia and converts
color spaces; those third-party steps produce the per-channel pixel samples
`syn_pixels` and `real_pixels` that the loop body consumes, so the loop body
is embedded as a function of those samples.  `np.polyfit` (an external
least-squares routine) is a function parameter. -/

/-- `torch.topk(diff, num_kept, largest=False).indices` for
`diff = (syn_pixels - real_pixels).abs()` followed by
`num_kept = round((1 - percentile) * len(real_pixels))`: the indices of the
`num_kept` smallest absolute differences (ties listed in index order,
matching a stable ascending sort of the values). -/
def keptIndices (synPixels realPixels : List ℚ) (percentile : ℚ) : List ℕ :=
  let numKept := (pyRound ((1 - percentile) * realPixels.length)).toNat
  let diff : List ℚ := (synPixels.zip realPixels).map (fun p => |p.1 - p.2|)
  ((List.range diff.length).insertionSort
    (fun i j => diff.getD i 0 ≤ diff.getD j 0)).take numKept

/-- `syn_pixels[indices]`: the synthetic pixels kept after outlier
trimming. -/
def keptSynPixels (synPixels realPixels : List ℚ) (percentile : ℚ) : List ℚ :=
  (keptIndices synPixels realPixels percentile).map (fun i => synPixels.getD i 0)

/-- `real_pixels[indices]`: the real pixels kept after outlier trimming. -/
def keptRealPixels (synPixels realPixels : List ℚ) (percentile : ℚ) : List ℚ :=
  (keptIndices synPixels realPixels percentile).map (fun i => realPixels.getD i 0)

/-- The per-channel body of the fitting loop in `_fit_polynomial`
(`lighting_tf.py`): drop the `percentile` fraction of pixels with the largest
absolute difference, then either return the degenerate constant polynomial
(`torch.zeros(polynomial_degree + 1)` with `poly[-1] = real_pixels.mean()`)
when `syn_pixels.sum() == 0`, or fit a polynomial with `np.polyfit`
(abstracted as the `polyfit` parameter; coefficients are returned highest
degree first). -/
def fitPolynomialChannel (polyfit : List ℚ → List ℚ → ℕ → List ℚ)
    (synPixels realPixels : List ℚ) (polynomialDegree : ℕ) (percentile : ℚ) :
    List ℚ :=
  let synKept := keptSynPixels synPixels realPixels percentile
  let realKept := keptRealPixels synPixels realPixels percentile
  if synKept.sum = 0 then
    List.replicate polynomialDegree 0 ++ [listMeanQ realKept]
  else
    polyfit synKept realKept polynomialDegree

/-! ### `RelightTransform.__init__` -/

/-- The two color-space conversion objects `RelightTransform.__init__` can
store in `self._color_tfs`: kornia's RGB/HSV pair, the custom `RGBtoLab` /
`LabtoRGB` pair, or kornia's RGB/Lab pair. -/
inductive ColorTfPair where
  | korniaHsv : ColorTfPair
  | customLab : ColorTfPair
  | korniaLab : ColorTfPair
deriving DecidableEq

/-- The state a successfully constructed `RelightTransform` carries. -/
structure RTState where
  method : String
  channels : Option (List ℕ)
  colorTfs : Option ColorTfPair
deriving DecidableEq

/-- `method.split("_")[-1].split("-")[0]` from `RelightTransform.__init__`. -/
def methodColorSpace (method : String) : List Char :=
  (pySplitL ((pySplitL method.toList ['_']).getLastD []) ['-']).headD []

/-- `RelightTransform.__init__(method)` from `lighting_tf.py`: parse the
channel suffix and color-space token out of the method string, pick the
color-space transform pair, and raise `ValueError` (modelled as `.error`)
when no pair was picked although the method contains `"color_transfer"`. -/
def relightTransformInit (method : String) : Except String RTState :=
  let chs : Option (List Char) :=
    if (pySplitL method.toList ['-']).length = 1 then none
    else some ((pySplitL method.toList ['-']).getD 1 [])
  let colorSpace := methodColorSpace method
  let tfsChs : Option ColorTfPair × Option (List ℕ) :=
    if colorSpace = "hsv".toList then
      (some .korniaHsv, if chs = some "sv".toList then some [1, 2] else none)
    else if colorSpace = "lab".toList then
      (if method = "color_transfer_lab" then some .customLab
       else some .korniaLab,
       if chs = some "l".toList then some [0] else none)
    else (none, none)
  if tfsChs.1 = none ∧ strContains method "color_transfer" then
    .error "Non-RGB color space transform is required for Color Transfer!"
  else
    .ok ⟨method, tfsChs.2, tfsChs.1⟩

/-- The `RELIGHT_METHODS` table from `hparams.py`. -/
def RELIGHT_METHODS : List String :=
  ["color_transfer", "color_transfer_hsv-sv", "color_transfer_lab-l",
   "polynomial", "polynomial_max", "polynomial_mean", "polynomial_hsv-sv",
   "polynomial_lab-l", "percentile"]

/-! ### The relight-apply functions `_color_transfer` and
`_polynomial_match`

Images are batched pixel grids `Fin nb → Fin 3 → Fin np → ℚ` (batch,
channel, flattened spatial position); the color-space transform pair is a
parameter, as in the source, so the theorems hold for every pair. -/

/-- `torch.clamp(x, lo, hi)` on one element. -/
def clampQ (lo hi x : ℚ) : ℚ := max lo (min x hi)

/-- `_color_transfer(inputs, ct_coeffs, channels, color_space_transforms)`
from `lighting_tf.py`: convert, apply `x * scale + offset` on the selected
channels (all channels when `channels is None`), convert back, and clamp to
`[0, 1]` when any out-of-bound value is detected (the source also logs
this). -/
def colorTransferApply (nb np : ℕ)
    (inputs : Fin nb → Fin 3 → Fin np → ℚ)
    (ctCoeffs : Fin nb → Fin 3 → ℚ × ℚ)
    (channels : Option (List (Fin 3)))
    (tfFwd tfInv : (Fin nb → Fin 3 → Fin np → ℚ) → Fin nb → Fin 3 → Fin np → ℚ) :
    Fin nb → Fin 3 → Fin np → ℚ :=
  let lab := tfFwd inputs
  let labOut : Fin nb → Fin 3 → Fin np → ℚ := fun b c p =>
    match channels with
    | none => lab b c p * (ctCoeffs b c).1 + (ctCoeffs b c).2
    | some chs =>
      if c ∈ chs then lab b c p * (ctCoeffs b c).1 + (ctCoeffs b c).2
      else lab b c p
  let rgbOut := tfInv labOut
  if (List.finRange nb).any (fun b => (List.finRange 3).any fun c =>
      (List.finRange np).any fun p =>
        decide (rgbOut b c p < 0) || decide (1 < rgbOut b c p)) then
    fun b c p => clampQ 0 1 (rgbOut b c p)
  else
    rgbOut

/-- `sum(poly_coeffs[d] * x ** (deg - 1 - d) for d)`: polynomial evaluation
with coefficients listed highest degree first, as built by the
`inputs[:, :, None].pow(degrees)` einsum of `_polynomial_match`. -/
def polyPowSum (coeffs : List ℚ) (x : ℚ) : ℚ :=
  ((coeffs.enum.map (fun p => p.2 * x ^ (coeffs.length - 1 - p.1))).sum)

/-- `_polynomial_match(inputs, poly_coeffs, channels, color_space_transforms)`
from `lighting_tf.py`: optionally convert, evaluate the per-channel
polynomial (channels outside the selected list pass through; with a channel
list, coefficients are indexed by `channels.index(channel)`), optionally
convert back, then `outputs.clamp_(0, 1)` unconditionally.  The rank and
batch-size `ValueError` guards of the source are enforced by the indexed
types. -/
def polynomialMatchApply (nb np : ℕ)
    (inputs : Fin nb → Fin 3 → Fin np → ℚ)
    (polyCoeffs : Fin nb → ℕ → List ℚ)
    (channels : Option (List (Fin 3)))
    (colorTfs : Option
      (((Fin nb → Fin 3 → Fin np → ℚ) → Fin nb → Fin 3 → Fin np → ℚ) ×
       ((Fin nb → Fin 3 → Fin np → ℚ) → Fin nb → Fin 3 → Fin np → ℚ))) :
    Fin nb → Fin 3 → Fin np → ℚ :=
  let ins := match colorTfs with
    | some tfs => tfs.1 inputs
    | none => inputs
  let outs : Fin nb → Fin 3 → Fin np → ℚ := fun b c p =>
    match channels with
    | none => polyPowSum (polyCoeffs b c) (ins b c p)
    | some chs =>
      if c ∈ chs then polyPowSum (polyCoeffs b (chs.indexOf c)) (ins b c p)
      else ins b c p
  let outs2 := match colorTfs with
    | some tfs => tfs.2 outs
    | none => outs
  fun b c p => clampQ 0 1 (outs2 b c p)

/-! ### The affine path of `run_realism_test_main.py`

`cv.getAffineTransform(src[:3], tgt)` is an external OpenCV solver returning
a 2×3 matrix; it is abstracted as the parameter of the embedding below,
which models the `torch.cat((sign_tf_matrix, torch.tensor([0, 0, 1])), dim=1)`
step that embeds it into homogeneous 3×3 form. -/

/-- Append the homogeneous row `[0, 0, 1]` to a 2×3 affine matrix, as the
`torch.cat` call on lines 270–276 of `run_realism_test_main.py`. -/
def embedAffineMatrix (m : Fin 2 → Fin 3 → ℚ) : Fin 3 → Fin 3 → ℚ :=
  fun i j =>
    if h : (i : ℕ) < 2 then m ⟨i, h⟩ j
    else if j = 2 then 1 else 0

/-! ### `_get_color_transfer_params`

The statistics `mean` / `std` take square roots, so this part of the
embedding lives over `ℝ`.  torch float semantics matter here only through
NaN: `mean` of an empty tensor and the unbiased `std` of a tensor with fewer
than two elements are NaN, and NaN propagates through `clamp_min`, `*`, `-`
and `/`.  Values are therefore wrapped in `FV`, "a float that is either NaN
or an ordinary (finite) value".  As in the source, the per-channel pixel
samples are taken after the upstream kornia color conversion and mask
selection. -/

/-- `_EPS = 1e-6` from `lighting_tf.py`, as a real number. -/
noncomputable def epsR : ℝ := 1 / 1000000

/-- A torch scalar that is either NaN or a finite value.  Infinities never
arise in `_get_color_transfer_params` because the only division has its
denominator clamped to at least `_EPS`. -/
inductive FV where
  | nan : FV
  | fin : ℝ → FV

/-- Whether the value is NaN (`torch.isnan`). -/
def FV.isNan : FV → Bool
  | .nan => true
  | .fin _ => false

/-- Multiplication with NaN propagation. -/
noncomputable def FV.mul : FV → FV → FV
  | .fin a, .fin b => .fin (a * b)
  | _, _ => .nan

/-- Subtraction with NaN propagation. -/
noncomputable def FV.sub : FV → FV → FV
  | .fin a, .fin b => .fin (a - b)
  | _, _ => .nan

open Classical in
/-- Division with NaN propagation.  The zero-denominator case is mapped to
NaN; it is unreachable in `_get_color_transfer_params`, whose only division
has denominator `clamp_min(std, _EPS) ≥ _EPS > 0`. -/
noncomputable def FV.div : FV → FV → FV
  | .fin a, .fin b => if b = 0 then .nan else .fin (a / b)
  | _, _ => .nan

/-- `torch.Tensor.clamp_min`: NaN propagates, finite values are floored. -/
noncomputable def FV.clampMin : FV → ℝ → FV
  | .nan, _ => .nan
  | .fin a, lo => .fin (max a lo)

/-- Arithmetic mean of a real list (value of `torch.mean` on a nonempty
tensor). -/
noncomputable def listMeanR (xs : List ℝ) : ℝ := xs.sum / xs.length

/-- Unbiased sample variance (denominator `n - 1`), as `torch.var`; its
value is only used for lists with at least two elements. -/
noncomputable def listVarR (xs : List ℝ) : ℝ :=
  ((xs.map (fun x => (x - listMeanR xs) ^ 2)).sum) / ((xs.length : ℝ) - 1)

/-- Unbiased standard deviation, as `torch.std` on a tensor with at least
two elements. -/
noncomputable def listStdR (xs : List ℝ) : ℝ := Real.sqrt (listVarR xs)

/-- `torch.mean` including its NaN-on-empty behaviour. -/
noncomputable def meanFV (xs : List ℝ) : FV :=
  if xs.length = 0 then .nan else .fin (listMeanR xs)

/-- `torch.std` (unbiased) including its NaN behaviour on tensors with
fewer than two elements. -/
noncomputable def stdFV (xs : List ℝ) : FV :=
  if xs.length < 2 then .nan else .fin (listStdR xs)

/-- The body of the channel loop of `_get_color_transfer_params`
(`lighting_tf.py`): `coeffs[c, 0] = real.std() / syn.std().clamp_min(_EPS)`
and `coeffs[c, 1] = real.mean() - syn.mean() * coeffs[c, 0]`. -/
noncomputable def ctCoeffsFV (real syn : Fin 3 → List ℝ) (c : Fin 3) : FV × FV :=
  let scale := (stdFV (real c)).div ((stdFV (syn c)).clampMin epsR)
  let offset := (meanFV (real c)).sub ((meanFV (syn c)).mul scale)
  (scale, offset)

/-- `_get_color_transfer_params` after color conversion and masking: fill
the 3×2 coefficient tensor channel by channel, then
`assert not coeffs.isnan().any()` (`AssertionError`, modelled as
`.error`). -/
noncomputable def getColorTransferParams (real syn : Fin 3 → List ℝ) :
    Except String (Fin 3 → FV × FV) :=
  if (List.finRange 3).any (fun c =>
      (ctCoeffsFV real syn c).1.isNan || (ctCoeffsFV real syn c).2.isNan) then
    .error "NaN in Color Transfer coeffs!"
  else
    .ok (fun c => ctCoeffsFV real syn c)

/-! ### The custom Lab converters `RGBtoLab` and `LabtoRGB`

`torch.einsum("bchw,cd->bdhw", x, M)` maps each per-pixel channel vector
`v` to `fun d => ∑ c, v c * M c d`, i.e. `Matrix.vecMul v M`; both modules
act pixelwise, so they are embedded on a single channel vector
`Fin 3 → ℝ`. -/

/-- `torch.clamp(x, lo, hi)` on a real scalar. -/
noncomputable def clampR (lo hi x : ℝ) : ℝ := max lo (min x hi)

/-- The `rgb_to_lms` buffer of `RGBtoLab`. -/
noncomputable def rgbToLms : Matrix (Fin 3) (Fin 3) ℝ :=
  !![0.3811, 0.5783, 0.0402;
     0.1967, 0.7244, 0.0782;
     0.0241, 0.1288, 0.8444]

/-- The diagonal `scale` factor `diag(1/√3, 1/√6, 1/√2)` shared by both
converters. -/
noncomputable def labScale : Matrix (Fin 3) (Fin 3) ℝ :=
  !![(Real.sqrt 3)⁻¹, 0, 0;
     0, (Real.sqrt 6)⁻¹, 0;
     0, 0, (Real.sqrt 2)⁻¹]

/-- The `loglms_to_lab` buffer of `RGBtoLab`: `scale @ [[1,1,1],[1,1,-2],[1,-1,0]]`. -/
noncomputable def loglmsToLab : Matrix (Fin 3) (Fin 3) ℝ :=
  labScale * !![(1 : ℝ), 1, 1; 1, 1, -2; 1, -1, 0]

/-- The `lab_to_loglms` buffer of `LabtoRGB`: `[[1,1,1],[1,1,-1],[1,-2,0]] @ scale`. -/
noncomputable def labToLoglms : Matrix (Fin 3) (Fin 3) ℝ :=
  !![(1 : ℝ), 1, 1; 1, 1, -1; 1, -2, 0] * labScale

/-- The `lms_to_rgb` buffer of `LabtoRGB`. -/
noncomputable def lmsToRgb : Matrix (Fin 3) (Fin 3) ℝ :=
  !![4.4679, -3.5873, 0.1193;
     -1.2186, 2.3809, -0.1624;
     0.0497, -0.2439, 1.2045]

/-- `inputs.clamp(_EPS, 1 - _EPS)` on one pixel, the first step of
`RGBtoLab.forward`. -/
noncomputable def clampedPixel (x : Fin 3 → ℝ) : Fin 3 → ℝ :=
  fun c => clampR epsR (1 - epsR) (x c)

/-- `RGBtoLab.forward` on one pixel: clamp to `(_EPS, 1 - _EPS)`, map to LMS,
take logs, map to Lab. -/
noncomputable def rgbToLabFwd (x : Fin 3 → ℝ) : Fin 3 → ℝ :=
  let lms := Matrix.vecMul (clampedPixel x) rgbToLms
  Matrix.vecMul (fun c => Real.log (lms c)) loglmsToLab

/-- `LabtoRGB.forward` on one pixel: map to log-LMS, exponentiate, map to
RGB. -/
noncomputable def labToRgbFwd (y : Fin 3 → ℝ) : Fin 3 → ℝ :=
  let loglms := Matrix.vecMul y labToLoglms
  Matrix.vecMul (fun c => Real.exp (loglms c)) lmsToRgb

/-- `Int.toNat` on a numeric literal, in the `OfNat` form produced while
normalising floors of rationals. -/
theorem intToNat_lit (n : ℕ) : (no_index (OfNat.ofNat n) : ℤ).toNat = OfNat.ofNat n := rfl

/-- Clamping to `[0, 1]` lands in `[0, 1]`. -/
theorem clampQ_unit_mem (x : ℚ) : 0 ≤ clampQ 0 1 x ∧ clampQ 0 1 x ≤ 1 := by
  unfold clampQ
  exact ⟨le_max_left 0 _, max_le (by norm_num) (min_le_right x 1)⟩

/-- C2: for every real-pixel sample, mode string and percentile `p` in
`[0, 1]`, `_simple_percentile` returns identical coefficients for `p` and
`1 - p`, because the input is folded to `min(p, 1 - p)` before use. -/
theorem simplePercentile_percentile_fold (realPixels : List (List ℚ))
    (mode : String) (p : ℚ) (h0 : 0 ≤ p) (h1 : p ≤ 1) :
    simplePercentile realPixels mode p
      = simplePercentile realPixels mode (1 - p) := by
  unfold simplePercentile
  have e1 : (1 : ℚ) - (1 - p) = p := by ring
  rw [e1, min_comm (1 - p) p,
    if_pos (show 0 ≤ p ∧ p ≤ 1 from ⟨h0, h1⟩),
    if_pos (show 0 ≤ 1 - p ∧ 1 - p ≤ 1 from ⟨by linarith, by linarith⟩)]

theorem simplePercentile_percentile_fold_witness :
    simplePercentile [[0, 1]] "" (1 / 4)
      = simplePercentile [[0, 1]] "" (1 - 1 / 4) :=
  simplePercentile_percentile_fold [[0, 1]] "" (1 / 4) (by norm_num)
    (by norm_num)

/-- C5: evaluation of `_simple_percentile` at the failing input
`real_pixels = [[5,5,5,5], [0,10,4,6], [1,2,3,4]]`, `mode = "-sv"`,
`percentile = 0`.  The claim expects the channel-2 row to be
`(3, 1)` (100th minus 0th percentile of `[1,2,3,4]`, and its 0th
percentile); the code reassigns the loop variable `real_pixels` to the
channel-1 row after the first iteration, so the second iteration reads the
scalar `real_pixels[2] = 4` out of channel 1 and produces `(0, 4)`. -/
theorem simplePercentile_sv_shadowing_eval :
    simplePercentile [[5, 5, 5, 5], [0, 10, 4, 6], [1, 2, 3, 4]] "-sv" 0
      = some [(10, 0), (0, 4)] := by
  norm_num +decide [simplePercentile, percChannelLoop, pyIndexReshape,
    percentileQ, pyRound, strContains, pySplit, pySplitAux,
    List.insertionSort, List.orderedInsert, intToNat_lit]

/-- C4: in `_fit_polynomial`, for every channel whose kept synthetic pixels
are all zero (and whose kept sample is nonempty), the returned polynomial is
`polynomial_degree` zero coefficients followed by the constant term
`real_pixels.mean()` computed over the kept real pixels — independently of
the `np.polyfit` routine. -/
theorem fitPolynomial_allzero_constant
    (polyfit : List ℚ → List ℚ → ℕ → List ℚ)
    (synPixels realPixels : List ℚ) (deg : ℕ) (pct : ℚ)
    (hall : ∀ v ∈ keptSynPixels synPixels realPixels pct, v = 0)
    (_hne : keptRealPixels synPixels realPixels pct ≠ []) :
    fitPolynomialChannel polyfit synPixels realPixels deg pct
      = List.replicate deg 0
          ++ [listMeanQ (keptRealPixels synPixels realPixels pct)] := by
  unfold fitPolynomialChannel
  rw [if_pos (List.sum_eq_zero hall)]

theorem fitPolynomial_allzero_constant_witness :
    fitPolynomialChannel (fun _ _ d => List.replicate (d + 1) 0) [0, 0] [1, 3] 1 0
      = List.replicate 1 0 ++ [listMeanQ (keptRealPixels [0, 0] [1, 3] 0)] := by
  have hk : keptSynPixels [0, 0] [1, 3] 0 = [0, 0] := by
    norm_num +decide [keptSynPixels, keptIndices, pyRound,
      List.insertionSort, List.orderedInsert, intToNat_lit]
  have hr : keptRealPixels [0, 0] [1, 3] 0 = [1, 3] := by
    norm_num +decide [keptRealPixels, keptIndices, pyRound,
      List.insertionSort, List.orderedInsert, intToNat_lit]
  exact fitPolynomial_allzero_constant _ [0, 0] [1, 3] 1 0
    (by rw [hk]; intro v hv; simpa using hv) (by rw [hr]; simp)

/-- C10: `_fit_polynomial` takes the degenerate constant branch whenever the
kept synthetic pixels merely SUM to zero, and at the concrete input
`syn_pixels = [1, -1]`, `real_pixels = [2, 4]` (kept pixels all nonzero,
summing to zero) it returns the constant polynomial `[0, 3]` — the mean of
the kept real pixels — for every possible `np.polyfit`, instead of a fitted
polynomial. -/
theorem fitPolynomial_sum_zero_branch :
    (∀ (polyfit : List ℚ → List ℚ → ℕ → List ℚ)
        (synPixels realPixels : List ℚ) (deg : ℕ) (pct : ℚ),
        (keptSynPixels synPixels realPixels pct).sum = 0 →
        fitPolynomialChannel polyfit synPixels realPixels deg pct
          = List.replicate deg 0
              ++ [listMeanQ (keptRealPixels synPixels realPixels pct)])
    ∧ (∀ polyfit : List ℚ → List ℚ → ℕ → List ℚ,
        fitPolynomialChannel polyfit [1, -1] [2, 4] 1 0 = [0, 3])
    ∧ keptSynPixels [1, -1] [2, 4] 0 = [1, -1]
    ∧ (∀ v ∈ keptSynPixels [1, -1] [2, 4] 0, v ≠ 0) := by
  have hk : keptSynPixels [1, -1] [2, 4] 0 = [1, -1] := by
    norm_num +decide [keptSynPixels, keptIndices, pyRound,
      List.insertionSort, List.orderedInsert, intToNat_lit]
  have hr : keptRealPixels [1, -1] [2, 4] 0 = [2, 4] := by
    norm_num +decide [keptRealPixels, keptIndices, pyRound,
      List.insertionSort, List.orderedInsert, intToNat_lit]
  refine ⟨?_, ?_, hk, ?_⟩
  · intro polyfit synPixels realPixels deg pct hsum
    unfold fitPolynomialChannel
    rw [if_pos hsum]
  · intro polyfit
    unfold fitPolynomialChannel
    rw [hk, hr]
    norm_num [listMeanQ]
  · rw [hk]; intro v hv
    rcases List.mem_pair.mp hv with h | h <;> rw [h] <;> norm_num

theorem fitPolynomial_sum_zero_branch_witness :
    fitPolynomialChannel (fun _ _ _ => []) [1, -1] [2, 4] 2 0
      = List.replicate 2 0 ++ [listMeanQ (keptRealPixels [1, -1] [2, 4] 0)] :=
  fitPolynomial_sum_zero_branch.1 (fun _ _ _ => []) [1, -1] [2, 4] 2 0
    (by norm_num +decide [keptSynPixels, keptIndices, pyRound,
      List.insertionSort, List.orderedInsert, intToNat_lit])

/-- C8: every 3×3 matrix produced by the affine path of
`run_realism_test_main.py` — `cv.getAffineTransform` output with the row
`[0, 0, 1]` concatenated — has its last (homogeneous) row exactly
`[0, 0, 1]`, whatever the solver returned. -/
theorem affine_matrix_last_row (m : Fin 2 → Fin 3 → ℚ) :
    embedAffineMatrix m 2 0 = 0 ∧ embedAffineMatrix m 2 1 = 0
      ∧ embedAffineMatrix m 2 2 = 1 :=
  ⟨rfl, rfl, rfl⟩

/-- C6: for every input batch and coefficient tensor of valid shape (and
every color-space transform pair and channel selection), each element of the
output of the relight-apply functions `_color_transfer` and
`_polynomial_match` lies in `[0, 1]`: out-of-range values are clamped, and
no error is raised on them. -/
theorem relight_apply_output_in_unit_range :
    (∀ (nb np : ℕ) (inputs : Fin nb → Fin 3 → Fin np → ℚ)
        (ctCoeffs : Fin nb → Fin 3 → ℚ × ℚ) (channels : Option (List (Fin 3)))
        (tfFwd tfInv :
          (Fin nb → Fin 3 → Fin np → ℚ) → Fin nb → Fin 3 → Fin np → ℚ)
        (b : Fin nb) (c : Fin 3) (p : Fin np),
        0 ≤ colorTransferApply nb np inputs ctCoeffs channels tfFwd tfInv b c p
        ∧ colorTransferApply nb np inputs ctCoeffs channels tfFwd tfInv b c p ≤ 1)
    ∧ (∀ (nb np : ℕ) (inputs : Fin nb → Fin 3 → Fin np → ℚ)
        (polyCoeffs : Fin nb → ℕ → List ℚ) (channels : Option (List (Fin 3)))
        (colorTfs : Option
          (((Fin nb → Fin 3 → Fin np → ℚ) → Fin nb → Fin 3 → Fin np → ℚ) ×
           ((Fin nb → Fin 3 → Fin np → ℚ) → Fin nb → Fin 3 → Fin np → ℚ)))
        (b : Fin nb) (c : Fin 3) (p : Fin np),
        0 ≤ polynomialMatchApply nb np inputs polyCoeffs channels colorTfs b c p
        ∧ polynomialMatchApply nb np inputs polyCoeffs channels colorTfs b c p ≤ 1) := by
  constructor
  · intro nb np inputs ctCoeffs channels tfFwd tfInv b c p
    unfold colorTransferApply
    rw [apply_ite (fun F : Fin nb → Fin 3 → Fin np → ℚ => F b c p)]
    split
    · exact clampQ_unit_mem _
    · rename_i h
      constructor
      · by_contra hlt
        refine h (List.any_eq_true.mpr ⟨b, List.mem_finRange b,
          List.any_eq_true.mpr ⟨c, List.mem_finRange c,
            List.any_eq_true.mpr ⟨p, List.mem_finRange p, ?_⟩⟩⟩)
        simp only [Bool.or_eq_true, decide_eq_true_eq]
        exact Or.inl (lt_of_not_le hlt)
      · by_contra hgt
        refine h (List.any_eq_true.mpr ⟨b, List.mem_finRange b,
          List.any_eq_true.mpr ⟨c, List.mem_finRange c,
            List.any_eq_true.mpr ⟨p, List.mem_finRange p, ?_⟩⟩⟩)
        simp only [Bool.or_eq_true, decide_eq_true_eq]
        exact Or.inr (lt_of_not_le hgt)
  · intro nb np inputs polyCoeffs channels colorTfs b c p
    unfold polynomialMatchApply
    exact clampQ_unit_mem _

/-- C9: constructing `RelightTransform` with the plain method string
`"color_transfer"` raises `ValueError`, although `"color_transfer"` is
listed in `RELIGHT_METHODS` (`hparams.py`); and among the method strings
containing `"color_transfer"`, exactly those whose parsed color-space token
is `"hsv"` or `"lab"` construct successfully. -/
theorem relightInit_color_transfer_spec :
    (relightTransformInit "color_transfer").isOk = false
    ∧ "color_transfer" ∈ RELIGHT_METHODS
    ∧ ∀ method : String, strContains method "color_transfer" = true →
        ((relightTransformInit method).isOk = true ↔
          (methodColorSpace method = "hsv".toList ∨
           methodColorSpace method = "lab".toList)) := by
  refine ⟨by decide, by decide, ?_⟩
  intro method hm
  unfold relightTransformInit
  dsimp only
  by_cases h1 : methodColorSpace method = "hsv".toList
  · rw [if_pos h1]
    simp [Except.isOk, Except.toBool, h1]
  · rw [if_neg h1]
    by_cases h2 : methodColorSpace method = "lab".toList
    · rw [if_pos h2]
      by_cases h3 : method = "color_transfer_lab"
      · rw [if_pos h3]
        simp [Except.isOk, Except.toBool, h2]
      · rw [if_neg h3]
        simp [Except.isOk, Except.toBool, h2]
    · rw [if_neg h2]
      rw [if_pos ⟨rfl, hm⟩]
      simp only [Except.isOk, Except.toBool]
      simp
      exact ⟨by simpa using h1, by simpa using h2⟩

theorem relightInit_color_transfer_spec_witness :
    (relightTransformInit "color_transfer_hsv-sv").isOk = true ↔
      (methodColorSpace "color_transfer_hsv-sv" = "hsv".toList ∨
       methodColorSpace "color_transfer_hsv-sv" = "lab".toList) :=
  relightInit_color_transfer_spec.2.2 "color_transfer_hsv-sv" (by decide)

/-- The clamped denominator of the color-transfer scale is nonzero. -/
theorem ctDenom_ne_zero (x : ℝ) : max x epsR ≠ 0 := by
  have h1 : (0 : ℝ) < epsR := by norm_num [epsR]
  have h2 := le_max_right x epsR
  linarith

/-- With at least two real and two synthetic pixels in channel `c`, the
color-transfer coefficients of that channel are finite and given by the
scale/offset formulas of the source. -/
theorem ctCoeffsFV_eq_of_two_le (real syn : Fin 3 → List ℝ) (c : Fin 3)
    (hr : 2 ≤ (real c).length) (hs : 2 ≤ (syn c).length) :
    ctCoeffsFV real syn c =
      (FV.fin (listStdR (real c) / max (listStdR (syn c)) epsR),
       FV.fin (listMeanR (real c) -
         listMeanR (syn c) * (listStdR (real c) / max (listStdR (syn c)) epsR))) := by
  have h1 : stdFV (real c) = .fin (listStdR (real c)) := by
    unfold stdFV; rw [if_neg (by omega)]
  have h2 : stdFV (syn c) = .fin (listStdR (syn c)) := by
    unfold stdFV; rw [if_neg (by omega)]
  have h3 : meanFV (real c) = .fin (listMeanR (real c)) := by
    unfold meanFV; rw [if_neg (by omega)]
  have h4 : meanFV (syn c) = .fin (listMeanR (syn c)) := by
    unfold meanFV; rw [if_neg (by omega)]
  unfold ctCoeffsFV
  rw [h1, h2, h3, h4]
  simp only [FV.clampMin, FV.div, FV.mul, FV.sub]
  rw [if_neg (ctDenom_ne_zero _)]

/-- With at least two pixels in every channel of both samples, the NaN
assert of `_get_color_transfer_params` passes and the coefficients are
returned. -/
theorem getColorTransferParams_ok_of_two_le (real syn : Fin 3 → List ℝ)
    (h : ∀ c : Fin 3, 2 ≤ (real c).length ∧ 2 ≤ (syn c).length) :
    getColorTransferParams real syn = .ok (fun c => ctCoeffsFV real syn c) := by
  unfold getColorTransferParams
  rw [if_neg ?hnan]
  case hnan =>
    simp only [List.any_eq_true, List.mem_finRange, Bool.or_eq_true, not_exists,
      not_or, true_and]
    intro c
    rw [ctCoeffsFV_eq_of_two_le real syn c (h c).1 (h c).2]
    simp [FV.isNan]

/-- C1: whenever every per-channel real and synthetic sample has at least
two elements, `_get_color_transfer_params` returns (the assert passes), and
for each channel the scale is the real standard deviation divided by the
synthetic standard deviation clamped below by `_EPS = 1e-6`, the offset is
the real mean minus the synthetic mean times that scale, and both are finite
(`FV.fin`): the clamped denominator is at least `_EPS > 0`, so a synthetic
sample of zero variance causes no division by zero. -/
theorem colorTransfer_params_formula (real syn : Fin 3 → List ℝ)
    (h : ∀ c : Fin 3, 2 ≤ (real c).length ∧ 2 ≤ (syn c).length) :
    getColorTransferParams real syn = .ok (fun c => ctCoeffsFV real syn c)
    ∧ ∀ c : Fin 3,
        ctCoeffsFV real syn c =
          (FV.fin (listStdR (real c) / max (listStdR (syn c)) epsR),
           FV.fin (listMeanR (real c) -
             listMeanR (syn c) * (listStdR (real c) / max (listStdR (syn c)) epsR)))
        ∧ epsR ≤ max (listStdR (syn c)) epsR ∧ (0 : ℝ) < epsR :=
  ⟨getColorTransferParams_ok_of_two_le real syn h,
   fun c => ⟨ctCoeffsFV_eq_of_two_le real syn c (h c).1 (h c).2,
     le_max_right _ _, by norm_num [epsR]⟩⟩

theorem colorTransfer_params_formula_witness :
    getColorTransferParams (fun _ => [(0 : ℝ), 1]) (fun _ => [(2 : ℝ), 2])
        = .ok (fun c => ctCoeffsFV (fun _ => [(0 : ℝ), 1]) (fun _ => [(2 : ℝ), 2]) c)
    ∧ ∀ c : Fin 3,
        ctCoeffsFV (fun _ => [(0 : ℝ), 1]) (fun _ => [(2 : ℝ), 2]) c =
          (FV.fin (listStdR [(0 : ℝ), 1] / max (listStdR [(2 : ℝ), 2]) epsR),
           FV.fin (listMeanR [(0 : ℝ), 1] -
             listMeanR [(2 : ℝ), 2] * (listStdR [(0 : ℝ), 1] / max (listStdR [(2 : ℝ), 2]) epsR)))
        ∧ epsR ≤ max (listStdR [(2 : ℝ), 2]) epsR ∧ (0 : ℝ) < epsR :=
  colorTransfer_params_formula (fun _ => [(0 : ℝ), 1]) (fun _ => [(2 : ℝ), 2])
    (fun _ => ⟨by norm_num, by norm_num⟩)

/-- C7: `_get_color_transfer_params` raises its `AssertionError` if and only
if some fitted coefficient is NaN, and whenever it returns normally the
returned coefficient tensor contains no NaN. -/
theorem colorTransfer_nan_assert (real syn : Fin 3 → List ℝ) :
    ((∃ msg, getColorTransferParams real syn = .error msg) ↔
      ∃ c : Fin 3, (ctCoeffsFV real syn c).1.isNan = true
        ∨ (ctCoeffsFV real syn c).2.isNan = true)
    ∧ ∀ cs, getColorTransferParams real syn = .ok cs →
        ∀ c : Fin 3, (cs c).1.isNan = false ∧ (cs c).2.isNan = false := by
  unfold getColorTransferParams
  by_cases hc : (List.finRange 3).any (fun c =>
      (ctCoeffsFV real syn c).1.isNan || (ctCoeffsFV real syn c).2.isNan) = true
  · rw [if_pos hc]
    simp only [List.any_eq_true, List.mem_finRange, Bool.or_eq_true,
      true_and] at hc
    constructor
    · exact ⟨fun _ => hc, fun _ => ⟨_, rfl⟩⟩
    · intro cs hcs
      exact absurd hcs (by simp)
  · rw [if_neg hc]
    simp only [List.any_eq_true, List.mem_finRange, Bool.or_eq_true,
      not_exists, not_or, true_and, Bool.not_eq_true] at hc
    constructor
    · constructor
      · rintro ⟨msg, hmsg⟩
        exact absurd hmsg (by simp)
      · rintro ⟨c, hnan | hnan⟩
        · rw [(hc c).1] at hnan; cases hnan
        · rw [(hc c).2] at hnan; cases hnan
    · intro cs hcs c
      have hfun : cs c = ctCoeffsFV real syn c :=
        (congrFun (Except.ok.inj hcs) c).symm
      rw [hfun]
      exact hc c

theorem colorTransfer_nan_assert_witness :
    ((fun c => ctCoeffsFV (fun _ => [(0 : ℝ), 1]) (fun _ => [(0 : ℝ), 1]) c) 0).1.isNan = false
    ∧ ((fun c => ctCoeffsFV (fun _ => [(0 : ℝ), 1]) (fun _ => [(0 : ℝ), 1]) c) 0).2.isNan = false :=
  (colorTransfer_nan_assert (fun _ => [(0 : ℝ), 1]) (fun _ => [(0 : ℝ), 1])).2 _
    (getColorTransferParams_ok_of_two_le _ _ (fun _ => ⟨by norm_num, by norm_num⟩)) 0

/-- The Lab-side matrices of the two converters are exact inverses:
`(scale @ B) @ (B' @ scale) = I` with `B @ B' = diag(3, 6, 2)` cancelling
the squared scale factors. -/
theorem labMat_inverse : loglmsToLab * labToLoglms = 1 := by
  have h3 : Real.sqrt 3 * Real.sqrt 3 = 3 := Real.mul_self_sqrt (by norm_num)
  have h6 : Real.sqrt 6 * Real.sqrt 6 = 6 := Real.mul_self_sqrt (by norm_num)
  have h2 : Real.sqrt 2 * Real.sqrt 2 = 2 := Real.mul_self_sqrt (by norm_num)
  have k3 : ((Real.sqrt 3)⁻¹ * (Real.sqrt 3)⁻¹ : ℝ) = 3⁻¹ := by
    rw [← mul_inv, h3]
  have k6 : ((Real.sqrt 6)⁻¹ * (Real.sqrt 6)⁻¹ : ℝ) = 6⁻¹ := by
    rw [← mul_inv, h6]
  have k2 : ((Real.sqrt 2)⁻¹ * (Real.sqrt 2)⁻¹ : ℝ) = 2⁻¹ := by
    rw [← mul_inv, h2]
  rw [loglmsToLab, labToLoglms, labScale, Matrix.mul_fin_three,
    Matrix.mul_fin_three, Matrix.mul_fin_three, Matrix.one_fin_three]
  ext i j
  fin_cases i <;> fin_cases j <;>
    simp [Matrix.vecHead, Matrix.vecTail] <;>
    nlinarith [k3, k6, k2, h3, h6, h2]

/-- The clamp of `RGBtoLab.forward` keeps each channel in
`[_EPS, 1 - _EPS]` and moves a value of `[0, 1]` by at most `_EPS`. -/
theorem clampedPixel_bounds (x : Fin 3 → ℝ) (hx : ∀ i, 0 ≤ x i ∧ x i ≤ 1)
    (c : Fin 3) :
    epsR ≤ clampedPixel x c ∧ clampedPixel x c ≤ 1 - epsR
      ∧ |clampedPixel x c - x c| ≤ epsR := by
  have he : (0 : ℝ) < epsR := by norm_num [epsR]
  have he2 : epsR ≤ 1 - epsR := by norm_num [epsR]
  obtain ⟨hl, hr⟩ := hx c
  unfold clampedPixel clampR
  refine ⟨le_max_left _ _, max_le he2 (min_le_right _ _), ?_⟩
  rw [abs_le]
  constructor
  · have hmin : x c - epsR ≤ min (x c) (1 - epsR) := by
      rcases le_total (x c) (1 - epsR) with h | h
      · rw [min_eq_left h]; linarith
      · rw [min_eq_right h]; linarith
    have := le_max_right epsR (min (x c) (1 - epsR))
    linarith
  · have hmax : max epsR (min (x c) (1 - epsR)) ≤ x c + epsR := by
      apply max_le
      · linarith
      · have := min_le_left (x c) (1 - epsR); linarith
    linarith

/-- The LMS vector of a clamped pixel is strictly positive, so the
logarithms of `RGBtoLab.forward` are applied to positive numbers. -/
theorem lms_entries_pos (x : Fin 3 → ℝ) (hx : ∀ i, 0 ≤ x i ∧ x i ≤ 1)
    (c : Fin 3) : 0 < Matrix.vecMul (clampedPixel x) rgbToLms c := by
  have h0 := (clampedPixel_bounds x hx 0).1
  have h1 := (clampedPixel_bounds x hx 1).1
  have h2 := (clampedPixel_bounds x hx 2).1
  have he : (0 : ℝ) < epsR := by norm_num [epsR]
  fin_cases c <;>
    · simp [Matrix.vecMul, Matrix.dotProduct, rgbToLms, Fin.sum_univ_three,
        Matrix.vecHead, Matrix.vecTail]
      linarith [h0, h1, h2, he]

/-- On a pixel with channels in `[0, 1]`, the Lab round trip collapses to the
single linear map `rgb_to_lms @ lms_to_rgb` applied to the clamped pixel:
the Lab-side matrices cancel exactly and `exp` undoes `log` on the positive
LMS values. -/
theorem lab_roundtrip_eq (x : Fin 3 → ℝ) (hx : ∀ i, 0 ≤ x i ∧ x i ≤ 1) :
    labToRgbFwd (rgbToLabFwd x)
      = Matrix.vecMul (clampedPixel x) (rgbToLms * lmsToRgb) := by
  unfold labToRgbFwd rgbToLabFwd
  dsimp only
  rw [Matrix.vecMul_vecMul, labMat_inverse, Matrix.vecMul_one]
  have hexp : (fun c => Real.exp
        ((fun c => Real.log (Matrix.vecMul (clampedPixel x) rgbToLms c)) c))
      = Matrix.vecMul (clampedPixel x) rgbToLms := by
    funext c
    exact Real.exp_log (lms_entries_pos x hx c)
  rw [hexp, Matrix.vecMul_vecMul]

/-- C3: converting an RGB pixel with channels in `[0, 1]` to the custom Lab
space and back reproduces it within tolerance `1/50` per channel: the only
distortions are the `(_EPS, 1 - _EPS)` clamp and the fact that the published
4-decimal `rgb_to_lms` and `lms_to_rgb` matrices are inverse only up to
about `1.5e-2`. -/
theorem lab_roundtrip_tolerance (x : Fin 3 → ℝ)
    (hx : ∀ i, 0 ≤ x i ∧ x i ≤ 1) :
    ∀ i, |labToRgbFwd (rgbToLabFwd x) i - x i| ≤ 1 / 50 := by
  have hP : rgbToLms * lmsToRgb =
      !![0.99999825, -0.00005034, -0.00002979;
         -0.00003137, 1.00002907, 0.00001565;
         -0.00731261, 0.01425683, 0.99903781] := by
    rw [rgbToLms, lmsToRgb, Matrix.mul_fin_three]
    norm_num
  have h0 := clampedPixel_bounds x hx 0
  have h1 := clampedPixel_bounds x hx 1
  have h2 := clampedPixel_bounds x hx 2
  have ha0 := abs_le.mp h0.2.2
  have ha1 := abs_le.mp h1.2.2
  have ha2 := abs_le.mp h2.2.2
  have he : (0 : ℝ) < epsR := by norm_num [epsR]
  have he1 : epsR = 1 / 1000000 := rfl
  intro i
  rw [lab_roundtrip_eq x hx, hP]
  fin_cases i <;>
    · simp [Matrix.vecMul, Matrix.dotProduct, Fin.sum_univ_three,
        Matrix.vecHead, Matrix.vecTail]
      rw [abs_le]
      constructor <;>
        linarith [h0.1, h0.2.1, h1.1, h1.2.1, h2.1, h2.2.1,
          ha0.1, ha0.2, ha1.1, ha1.2, ha2.1, ha2.2, he, he1.ge, he1.le]

theorem lab_roundtrip_tolerance_witness :
    |labToRgbFwd (rgbToLabFwd (fun _ => (1 : ℝ) / 2)) 0
        - (fun _ => (1 : ℝ) / 2) 0| ≤ 1 / 50
    ∧ |labToRgbFwd (rgbToLabFwd (fun _ => (1 : ℝ) / 2)) 1
        - (fun _ => (1 : ℝ) / 2) 1| ≤ 1 / 50
    ∧ |labToRgbFwd (rgbToLabFwd (fun _ => (1 : ℝ) / 2)) 2
        - (fun _ => (1 : ℝ) / 2) 2| ≤ 1 / 50 :=
  ⟨lab_roundtrip_tolerance (fun _ => (1 : ℝ) / 2) (fun _ => by norm_num) 0,
   lab_roundtrip_tolerance (fun _ => (1 : ℝ) / 2) (fun _ => by norm_num) 1,
   lab_roundtrip_tolerance (fun _ => (1 : ℝ) / 2) (fun _ => by norm_num) 2⟩

end Reap
